import Mathlib

/-!
Verification of the decision-tree-explorer prediction pipeline.

The repository serves predictions from a trained binary decision tree and
reports, for each prediction, the class-probability distribution and the
ordered decision path.  The backend module holding the evaluator is not part
of the checked-in sources, so the evaluator below is modelled from the
specification (TreeModel, FeatureVector, DecisionPathEvaluator).  The model
trainer form logic is embedded directly from
frontend/src/components/ModelTrainer.js.

Probabilities are modelled over the rationals; machine floats are replaced by
exact arithmetic, with tolerance statements kept as in the specification.
-/

namespace DecisionTree

/-- Modelled from the spec: a raw feature value supplied by a caller at
prediction time, either numeric or a categorical string. -/
inductive RawValue where
  | num (q : ℚ)
  | str (s : String)
deriving DecidableEq

/-- Modelled from the spec: the type tag of a feature in the FeatureSchema.
A categorical feature carries the ordered list of allowed category values;
the integer code of a category is its position in that list. -/
inductive FeatureType where
  | numeric
  | categorical (cats : List String)
deriving DecidableEq

/-- Modelled from the spec: a node of the strictly binary decision tree.
A leaf holds the class-count distribution observed at training time; an
internal node holds a feature index into the schema, a numeric threshold,
and exactly two children. -/
inductive TreeNode where
  | leaf (counts : List (String × Nat))
  | internal (featureIndex : Nat) (threshold : ℚ) (left right : TreeNode)
deriving DecidableEq

/-- Modelled from the spec: the immutable trained tree artifact, with the
root node, the ordered feature schema and the ordered class-label list. -/
structure TreeModel where
  root : TreeNode
  schema : List (String × FeatureType)
  classLabels : List String
deriving DecidableEq

/-- Modelled from the spec: a mapping from feature name to raw value.  The
first binding of a name is the one that counts. -/
abbrev FeatureVector := List (String × RawValue)

/-- Modelled from the spec: the error kinds reported by the evaluator. -/
inductive EvalError where
  | missingFeature (name : String)
  | unknownCategory (name : String) (value : RawValue)
deriving DecidableEq

/-- Modelled from the spec: one comparison performed during traversal.  The
spec renders it as a human-readable string holding the feature name, the
operator, the threshold and the observed value; the structure keeps those
four ingredients explicitly, with wentLeft true for the operator form
"value <= threshold" and false for "value > threshold". -/
structure DecisionStep where
  featureName : String
  wentLeft : Bool
  threshold : ℚ
  value : ℚ
deriving DecidableEq

/-- Modelled from the spec: predicted class, full probability distribution in
class-label order, and the ordered decision steps. -/
structure PredictionResult where
  predictedClass : String
  probabilities : List (String × ℚ)
  decisionSteps : List DecisionStep
deriving DecidableEq

/-- First value bound to a name in a feature vector. -/
def lookupValue : FeatureVector → String → Option RawValue
  | [], _ => none
  | (n, v) :: rest, name => if n = name then some v else lookupValue rest name

/-- Modelled from the spec: the schema-defined integer code of a category is
its position in the ordered category list; none when the value is unknown. -/
def codeOf : List String → String → Option ℚ
  | [], _ => none
  | c :: cs, s => if s = c then some 0 else (codeOf cs s).map (· + 1)

/-- Modelled from the spec, step 2 of evaluate: a numeric feature uses the
supplied numeric value directly, and a categorical feature maps the supplied
raw value to its schema code, failing with UnknownCategoryError when the
value is not a known category (a numeric value supplied for a categorical
feature is likewise not in the category set).  A string supplied for a
numeric feature is outside the validity invariant of the spec and is left
unspecified there; this embedding gives that case an arbitrary total value,
and no theorem below depends on it. -/
def encodeValue (name : String) : FeatureType → RawValue → Except EvalError ℚ
  | .numeric, .num q => .ok q
  | .numeric, .str _ => .ok 0
  | .categorical cats, .str s =>
    match codeOf cats s with
    | some q => .ok q
    | none => .error (.unknownCategory name (.str s))
  | .categorical _, .num q => .error (.unknownCategory name (.num q))

/-- Modelled from the spec, step 1 of evaluate: the first schema feature name
with no value in the input, if any. -/
def firstMissing (fv : FeatureVector) : List (String × FeatureType) → Option String
  | [] => none
  | (n, _) :: rest =>
    match lookupValue fv n with
    | none => some n
    | some _ => firstMissing fv rest

/-- Modelled from the spec, step 2 of evaluate: encode every schema feature in
schema order, propagating the first failure. -/
def encodeAll (fv : FeatureVector) : List (String × FeatureType) → Except EvalError (List ℚ)
  | [] => .ok []
  | (n, ty) :: rest =>
    match lookupValue fv n with
    | none => .error (.missingFeature n)
    | some v =>
      match encodeValue n ty v with
      | .error e => .error e
      | .ok q =>
        match encodeAll fv rest with
        | .error e => .error e
        | .ok qs => .ok (q :: qs)

/-- Modelled from the spec, step 3 of evaluate: walk from a node to the
terminal leaf over the encoded feature values, recording one decision step
per internal node, descending left when value <= threshold and right
otherwise.  Returns the recorded steps (root first) and the class counts of
the terminal leaf. -/
def walk (names : List String) (xs : List ℚ) : TreeNode → List DecisionStep × List (String × Nat)
  | .leaf counts => ([], counts)
  | .internal i t l r =>
    if xs.getD i 0 ≤ t then
      (⟨names.getD i "", true, t, xs.getD i 0⟩ :: (walk names xs l).1, (walk names xs l).2)
    else
      (⟨names.getD i "", false, t, xs.getD i 0⟩ :: (walk names xs r).1, (walk names xs r).2)

/-- Total sample count of a leaf distribution. -/
def leafTotal (counts : List (String × Nat)) : Nat :=
  (counts.map Prod.snd).sum

/-- Count recorded for a class label at a leaf, 0 when the label is absent. -/
def countFor : List (String × Nat) → String → Nat
  | [], _ => 0
  | (k, v) :: rest, label => if label = k then v else countFor rest label

/-- Modelled from the spec, step 4 of evaluate: the probability of each class
label in order; count divided by the leaf total, or the uniform fallback
1 / numClasses when the leaf total is 0. -/
def leafProbs (labels : List String) (counts : List (String × Nat)) : List (String × ℚ) :=
  if leafTotal counts = 0 then
    labels.map (fun l => (l, 1 / (labels.length : ℚ)))
  else
    labels.map (fun l => (l, (countFor counts l : ℚ) / (leafTotal counts : ℚ)))

/-- Modelled from the spec, step 5 of evaluate: fold keeping the current best,
replaced only by a strictly larger probability, so that ties keep the
earlier entry. -/
def pickBest : (String × ℚ) → List (String × ℚ) → String × ℚ
  | cur, [] => cur
  | cur, p :: ps => pickBest (if cur.2 < p.2 then p else cur) ps

/-- Modelled from the spec, step 5 of evaluate: the label of the first entry
attaining the maximal probability. -/
def predictedOf : List (String × ℚ) → String
  | [] => ""
  | p :: ps => (pickBest p ps).1

/-- Modelled from the spec: DecisionPathEvaluator.evaluate.  Validates
presence of every schema feature, encodes the raw values, walks the tree
from the root and assembles the prediction result. -/
def evaluate (m : TreeModel) (fv : FeatureVector) : Except EvalError PredictionResult :=
  match firstMissing fv m.schema with
  | some n => .error (.missingFeature n)
  | none =>
    match encodeAll fv m.schema with
    | .error e => .error e
    | .ok xs =>
      let res := walk (m.schema.map Prod.fst) xs m.root
      let probs := leafProbs m.classLabels res.2
      .ok ⟨predictedOf probs, probs, res.1⟩

/-- The encoded numeric feature vector of an input (junk value [] when
encoding fails; every use below is guarded by a successful evaluation). -/
def encodedOf (m : TreeModel) (fv : FeatureVector) : List ℚ :=
  match encodeAll fv m.schema with
  | .ok xs => xs
  | .error _ => []

/-- Class counts of the terminal leaf reached by an input. -/
def terminalCounts (m : TreeModel) (fv : FeatureVector) : List (String × Nat) :=
  (walk (m.schema.map Prod.fst) (encodedOf m fv) m.root).2

/-- Internal nodes visited on the way to the terminal leaf, in order, root
first. -/
def visited (xs : List ℚ) : TreeNode → List TreeNode
  | .leaf _ => []
  | .internal i t l r =>
    .internal i t l r :: (if xs.getD i 0 ≤ t then visited xs l else visited xs r)

/-- Depth of the terminal leaf reached from a node, that is, the number of
internal nodes on the root-to-leaf path taken. -/
def pathLen (xs : List ℚ) : TreeNode → Nat
  | .leaf _ => 0
  | .internal i t l r => (if xs.getD i 0 ≤ t then pathLen xs l else pathLen xs r) + 1

/-- The decision step the traversal records at a node (junk at a leaf, where
no step is recorded). -/
def stepOf (names : List String) (xs : List ℚ) : TreeNode → DecisionStep
  | .leaf _ => ⟨"", true, 0, 0⟩
  | .internal i t _ _ => ⟨names.getD i "", decide (xs.getD i 0 ≤ t), t, xs.getD i 0⟩

/-- Leaf soundness for a tree: every leaf mentions only known class labels,
each at most once. -/
def leavesOk (labels : List String) : TreeNode → Prop
  | .leaf counts => (∀ p ∈ counts, p.1 ∈ labels) ∧ (counts.map Prod.fst).Nodup
  | .internal _ _ l r => leavesOk labels l ∧ leavesOk labels r

def decLeavesOk (labels : List String) : (n : TreeNode) → Decidable (leavesOk labels n)
  | .leaf counts => by unfold leavesOk; infer_instance
  | .internal _ _ l r => by
      unfold leavesOk
      exact @instDecidableAnd _ _ (decLeavesOk labels l) (decLeavesOk labels r)

instance (labels : List String) (n : TreeNode) : Decidable (leavesOk labels n) :=
  decLeavesOk labels n

/-- Construction-time invariants of a TreeModel stated by the spec: a
nonempty duplicate-free class-label list, and leaf distributions ranging
over those labels. -/
def WellFormed (m : TreeModel) : Prop :=
  m.classLabels ≠ [] ∧ m.classLabels.Nodup ∧ leavesOk m.classLabels m.root

instance (m : TreeModel) : Decidable (WellFormed m) := by
  unfold WellFormed; infer_instance

/-- Category-set membership of a raw value, as the encoder sees it: a string
is in the set when it has a code, a numeric value never is. -/
def inCats (cats : List String) : RawValue → Bool
  | .str s => (codeOf cats s).isSome
  | .num _ => false

/-- Scenario model from the spec: a single leaf with counts A 3 and B 1, no
internal nodes, no features. -/
def singleLeafModel : TreeModel :=
  ⟨.leaf [("A", 3), ("B", 1)], [], ["A", "B"]⟩

/-- Scenario model from the spec: a degenerate zero-count leaf with class
labels A, B, C. -/
def degenerateModel : TreeModel :=
  ⟨.leaf [], [], ["A", "B", "C"]⟩

/-- Scenario model from the spec: one internal node testing age against 30,
left leaf Approved 1, right leaf Denied 1 and Approved 4. -/
def ageModel : TreeModel :=
  ⟨.internal 0 30 (.leaf [("Approved", 1)]) (.leaf [("Denied", 1), ("Approved", 4)]),
    [("age", .numeric)], ["Approved", "Denied"]⟩

/-- A model with one categorical feature, for the unknown-category scenario. -/
def catModel : TreeModel :=
  ⟨.leaf [("A", 1)], [("job", .categorical ["office", "manual"])], ["A"]⟩

end DecisionTree

namespace Trainer

/-- Outcome of a submission of the training form: either the error callback
is invoked with a message, or a request with the selected target and feature
columns is sent to the train endpoint. -/
inductive SubmitOutcome where
  | error (msg : String)
  | request (target : String) (features : List String)
deriving DecidableEq

/-- Embeds handleSubmit of ModelTrainer.js (lines 58 to 95): reject when no
target column is selected, when no feature column is selected, or when the
target column is among the selected features; otherwise post the payload. -/
def handleSubmit (target : String) (features : List String) : SubmitOutcome :=
  if target = "" then .error "Please select a target column"
  else if features = [] then .error "Please select at least one feature column"
  else if features.contains target then .error "Target column cannot also be a feature column"
  else .request target features

/-- Embeds the min samples split branch of handleChange in ModelTrainer.js
(lines 24 to 28): the parsed integer is accepted exactly when it is
positive.  A non-numeric input parses to NaN, for which the comparison is
false, so it is covered by the rejected case. -/
def minSamplesSplitAccepts (v : Int) : Bool :=
  decide (0 < v)

/-- Embeds the state update performed by that branch: the field is set to the
parsed value when accepted, and left unchanged otherwise. -/
def minSamplesSplitUpdate (current v : Int) : Int :=
  if 0 < v then v else current

end Trainer

namespace DecisionTree

/-- C1: at an internal node, the traversal descends to the left child,
recording the step with the left operator, exactly when the value of the
feature at the feature index of the node is at most the threshold; a value
equal to the threshold therefore descends left. -/
theorem evaluate_descends_left_iff (names : List String) (xs : List ℚ)
    (i : Nat) (t : ℚ) (l r : TreeNode) :
    walk names xs (.internal i t l r) =
      (⟨names.getD i "", true, t, xs.getD i 0⟩ :: (walk names xs l).1,
        (walk names xs l).2)
    ↔ xs.getD i 0 ≤ t := by
  constructor
  · intro h
    by_contra hle
    rw [walk] at h
    simp only [if_neg hle] at h
    exact Bool.false_ne_true (congrArg DecisionStep.wentLeft
      (congrArg (fun s => s.headD ⟨"", false, 0, 0⟩) (congrArg Prod.fst h)))
  · intro h
    rw [walk]
    simp only [if_pos h]

end DecisionTree

namespace Trainer

/-- C10: the training form submission sends a request exactly when a target
column is selected, at least one feature column is selected, and the target
is not among the features; in every other case the error callback is
invoked and no request is sent. -/
theorem handleSubmit_request_iff (target : String) (features : List String) :
    ((∃ t fs, handleSubmit target features = .request t fs) ↔
      (target ≠ "" ∧ features ≠ [] ∧ target ∉ features)) ∧
    ((∃ msg, handleSubmit target features = .error msg) ↔
      ¬(target ≠ "" ∧ features ≠ [] ∧ target ∉ features)) := by
  unfold handleSubmit
  by_cases h1 : target = ""
  · simp [h1]
  · by_cases h2 : features = []
    · simp [h1, h2]
    · by_cases h3 : target ∈ features
      · have hc : features.contains target = true := List.elem_iff.mpr h3
        simp [h1, h2, h3, hc]
      · have hc : ¬ features.contains target = true := fun hh => h3 (List.elem_iff.mp hh)
        simp [h1, h2, h3, hc]

/-- C9 counterexample: the min samples split input handler accepts the value
1 (it stores it in the form state), and 1 is not at least 2, so not every
accepted min samples split value is at least 2. -/
theorem minSamplesSplit_accepts_one :
    minSamplesSplitAccepts 1 = true ∧ minSamplesSplitUpdate 2 1 = 1 ∧
      ¬ (2 ≤ (1 : Int)) := by
  refine ⟨by decide, by decide, by decide⟩

/-- C9 amended: every min samples split value accepted by the handler is a
positive integer, that is, at least 1, and exactly the positive integers
are accepted and stored. -/
theorem minSamplesSplit_accepts_iff_pos (current v : Int) :
    (minSamplesSplitAccepts v = true ↔ 1 ≤ v) ∧
    (minSamplesSplitAccepts v = true → minSamplesSplitUpdate current v = v) ∧
    (minSamplesSplitAccepts v = false → minSamplesSplitUpdate current v = current) := by
  refine ⟨?_, ?_, ?_⟩
  · unfold minSamplesSplitAccepts
    rw [decide_eq_true_iff]
    omega
  · intro h
    unfold minSamplesSplitAccepts at h
    rw [decide_eq_true_iff] at h
    unfold minSamplesSplitUpdate
    rw [if_pos h]
  · intro h
    unfold minSamplesSplitAccepts at h
    rw [decide_eq_false_iff_not] at h
    unfold minSamplesSplitUpdate
    rw [if_neg h]

end Trainer

namespace DecisionTree

/-- Inversion of a successful evaluation: validation found nothing missing,
encoding succeeded, and the result is assembled from the walk. -/
theorem evaluate_ok_inv (m : TreeModel) (fv : FeatureVector) (r : PredictionResult)
    (h : evaluate m fv = .ok r) :
    firstMissing fv m.schema = none ∧
    ∃ xs, encodeAll fv m.schema = .ok xs ∧ encodedOf m fv = xs ∧
      r = ⟨predictedOf (leafProbs m.classLabels (walk (m.schema.map Prod.fst) xs m.root).2),
           leafProbs m.classLabels (walk (m.schema.map Prod.fst) xs m.root).2,
           (walk (m.schema.map Prod.fst) xs m.root).1⟩ := by
  unfold evaluate at h
  split at h
  · exact absurd h (by simp)
  · rename_i hfm
    split at h
    · exact absurd h (by simp)
    · rename_i xs henc
      refine ⟨hfm, xs, henc, ?_, ?_⟩
      · unfold encodedOf
        rw [henc]
      · simpa [eq_comm] using h

theorem walk_steps_eq (names : List String) (xs : List ℚ) :
    ∀ n : TreeNode, (walk names xs n).1 = (visited xs n).map (stepOf names xs)
  | .leaf c => by simp [walk, visited]
  | .internal i t l r => by
    by_cases h : xs.getD i 0 ≤ t
    · simp only [walk, visited, if_pos h]
      simp [stepOf, decide_eq_true h, walk_steps_eq names xs l]
      simpa using h
    · simp only [walk, visited, if_neg h]
      simp [stepOf, decide_eq_false h, walk_steps_eq names xs r]
      simpa using not_le.mp h

theorem visited_length (xs : List ℚ) :
    ∀ n : TreeNode, (visited xs n).length = pathLen xs n
  | .leaf c => by simp [visited, pathLen]
  | .internal i t l r => by
    by_cases h : xs.getD i 0 ≤ t
    · simp only [visited, pathLen, if_pos h]
      simp [visited_length xs l]
    · simp only [visited, pathLen, if_neg h]
      simp [visited_length xs r]

/-- C5: the decision steps of a successful prediction are, in order, the
descriptions of the internal nodes visited from the root down to the
terminal leaf, and their number equals the depth of the terminal leaf
reached (0 when the root is a leaf). -/
theorem evaluate_steps_path (m : TreeModel) (fv : FeatureVector) (r : PredictionResult)
    (h : evaluate m fv = .ok r) :
    r.decisionSteps =
      (visited (encodedOf m fv) m.root).map
        (stepOf (m.schema.map Prod.fst) (encodedOf m fv)) ∧
    r.decisionSteps.length = pathLen (encodedOf m fv) m.root := by
  obtain ⟨hfm, xs, henc, hxs, hr⟩ := evaluate_ok_inv m fv r h
  subst hxs
  subst hr
  constructor
  · exact walk_steps_eq _ _ _
  · rw [walk_steps_eq _ _ _, List.length_map]
    exact visited_length _ _

/-- C5 witness: on the age model with input age 25, evaluation succeeds, the
single decision step describes the root test, and the step count equals the
depth 1 of the leaf reached. -/
theorem evaluate_steps_path_witness :
    evaluate ageModel [("age", .num 25)] =
      .ok ⟨"Approved", [("Approved", 1), ("Denied", 0)],
            [⟨"age", true, 30, 25⟩]⟩ ∧
    ([⟨"age", true, 30, 25⟩] : List DecisionStep) =
      (visited (encodedOf ageModel [("age", .num 25)]) ageModel.root).map
        (stepOf (ageModel.schema.map Prod.fst) (encodedOf ageModel [("age", .num 25)])) ∧
    ([⟨"age", true, 30, 25⟩] : List DecisionStep).length =
      pathLen (encodedOf ageModel [("age", .num 25)]) ageModel.root := by
  have h2 : firstMissing [("age", .num 25)] [("age", FeatureType.numeric)] = none := by
    simp [firstMissing, lookupValue]
  have h1 : encodeAll [("age", .num 25)] [("age", FeatureType.numeric)] = .ok [25] := by
    simp [encodeAll, lookupValue, encodeValue]
  have h25 : ((25 : ℚ) ≤ 30) := by norm_num
  have h3 : walk ["age"] [25]
      (TreeNode.internal 0 30 (.leaf [("Approved", 1)])
        (.leaf [("Denied", 1), ("Approved", 4)])) =
      ([⟨"age", true, 30, 25⟩], [("Approved", 1)]) := by
    simp [walk, h25]
  have h4 : leafProbs ["Approved", "Denied"] [("Approved", 1)] =
      [("Approved", 1), ("Denied", 0)] := by
    simp [leafProbs, leafTotal, countFor]
  have h5 : predictedOf [("Approved", 1), ("Denied", 0)] = "Approved" := by
    norm_num [predictedOf, pickBest]
  have hok : evaluate ageModel [("age", .num 25)] =
      .ok ⟨"Approved", [("Approved", 1), ("Denied", 0)],
            [⟨"age", true, 30, 25⟩]⟩ := by
    simp [evaluate, h2, h1, ageModel, h3, h4, h5]
  have hsteps := evaluate_steps_path ageModel [("age", .num 25)]
    ⟨"Approved", [("Approved", 1), ("Denied", 0)], [⟨"age", true, 30, 25⟩]⟩ hok
  exact ⟨hok, hsteps.1, hsteps.2⟩

end DecisionTree

namespace DecisionTree

/-- C2: the probabilities of a successful prediction are computed at the
terminal leaf reached: when its total count is 0 every class label gets the
uniform fallback 1 / numClasses, and when its total count is positive each
class gets its leaf count (0 when absent) divided by the leaf total. -/
theorem evaluate_leaf_probabilities (m : TreeModel) (fv : FeatureVector)
    (r : PredictionResult) (h : evaluate m fv = .ok r) :
    (leafTotal (terminalCounts m fv) = 0 →
      r.probabilities =
        m.classLabels.map (fun l => (l, 1 / (m.classLabels.length : ℚ)))) ∧
    (0 < leafTotal (terminalCounts m fv) →
      r.probabilities =
        m.classLabels.map (fun l =>
          (l, (countFor (terminalCounts m fv) l : ℚ) /
            (leafTotal (terminalCounts m fv) : ℚ)))) := by
  obtain ⟨hfm, xs, henc, hxs, hr⟩ := evaluate_ok_inv m fv r h
  have hcounts : terminalCounts m fv = (walk (m.schema.map Prod.fst) xs m.root).2 := by
    unfold terminalCounts
    rw [hxs]
  subst hr
  rw [hcounts]
  constructor
  · intro h0
    simp only [leafProbs, if_pos h0]
  · intro hpos
    simp only [leafProbs, if_neg (Nat.pos_iff_ne_zero.mp hpos)]

/-- C2 witness: the degenerate zero-count leaf with class labels A, B, C
yields the uniform distribution with probability 1/3 each. -/
theorem evaluate_leaf_probabilities_witness :
    evaluate degenerateModel [] =
      .ok ⟨"A", [("A", (1 : ℚ)/3), ("B", (1 : ℚ)/3), ("C", (1 : ℚ)/3)], []⟩ ∧
    leafTotal (terminalCounts degenerateModel []) = 0 ∧
    (⟨"A", [("A", (1 : ℚ)/3), ("B", (1 : ℚ)/3), ("C", (1 : ℚ)/3)], []⟩ :
        PredictionResult).probabilities =
      degenerateModel.classLabels.map
        (fun l => (l, 1 / (degenerateModel.classLabels.length : ℚ))) := by
  have h4 : leafProbs ["A", "B", "C"] [] =
      [("A", (1 : ℚ)/3), ("B", (1 : ℚ)/3), ("C", (1 : ℚ)/3)] := by
    norm_num [leafProbs, leafTotal]
  have h5 : predictedOf [("A", (3 : ℚ)⁻¹), ("B", (3 : ℚ)⁻¹), ("C", (3 : ℚ)⁻¹)] = "A" := by
    norm_num [predictedOf, pickBest]
  have hok : evaluate degenerateModel [] =
      .ok ⟨"A", [("A", (1 : ℚ)/3), ("B", (1 : ℚ)/3), ("C", (1 : ℚ)/3)], []⟩ := by
    simp [evaluate, degenerateModel, firstMissing, encodeAll, walk, h4, h5]
  have h0 : leafTotal (terminalCounts degenerateModel []) = 0 := rfl
  exact ⟨hok, h0,
    (evaluate_leaf_probabilities degenerateModel []
      ⟨"A", [("A", (1 : ℚ)/3), ("B", (1 : ℚ)/3), ("C", (1 : ℚ)/3)], []⟩ hok).1 h0⟩

/-- C8: evaluation is a pure function of the model and the feature vector:
two calls with the same model and the same input return identical results,
and the model itself is immutable data that no evaluation alters. -/
theorem evaluate_deterministic (m1 m2 : TreeModel) (fv1 fv2 : FeatureVector)
    (hm : m1 = m2) (hf : fv1 = fv2) :
    evaluate m1 fv1 = evaluate m2 fv2 := by
  rw [hm, hf]

/-- C8 witness: two evaluations of the single-leaf model on the empty input
agree. -/
theorem evaluate_deterministic_witness :
    evaluate singleLeafModel [] = evaluate singleLeafModel [] :=
  evaluate_deterministic singleLeafModel singleLeafModel [] [] rfl rfl

theorem firstMissing_of_missing (fv : FeatureVector) :
    ∀ schema : List (String × FeatureType),
      (∃ p ∈ schema, lookupValue fv p.1 = none) →
      ∃ n, firstMissing fv schema = some n ∧ n ∈ schema.map Prod.fst ∧
        lookupValue fv n = none
  | [], h => absurd h (by simp)
  | (n0, ty) :: rest, h => by
    cases hl : lookupValue fv n0 with
    | none => exact ⟨n0, by simp [firstMissing, hl], by simp, hl⟩
    | some v =>
      obtain ⟨p, hp, hnone⟩ := h
      rcases List.mem_cons.mp hp with heq | hmem
      · rw [heq] at hnone
        simp only at hnone
        rw [hnone] at hl
        exact absurd hl (by simp)
      · obtain ⟨n, h1, h2, h3⟩ := firstMissing_of_missing fv rest ⟨p, hmem, hnone⟩
        refine ⟨n, ?_, ?_, h3⟩
        · simp only [firstMissing, hl]
          exact h1
        · simp only [List.map_cons, List.mem_cons]
          exact Or.inr h2

/-- C6: when the input lacks a value for some schema feature, evaluation
fails with MissingFeatureError naming a missing schema feature, and it does
so whatever the tree is, so no traversal is involved and no default value is
substituted. -/
theorem evaluate_missing_feature (m : TreeModel) (fv : FeatureVector)
    (h : ∃ p ∈ m.schema, lookupValue fv p.1 = none) :
    ∃ n, n ∈ m.schema.map Prod.fst ∧ lookupValue fv n = none ∧
      evaluate m fv = .error (.missingFeature n) ∧
      ∀ root2 : TreeNode,
        evaluate ⟨root2, m.schema, m.classLabels⟩ fv = .error (.missingFeature n) := by
  obtain ⟨n, h1, h2, h3⟩ := firstMissing_of_missing fv m.schema h
  refine ⟨n, h2, h3, ?_, ?_⟩
  · unfold evaluate
    rw [h1]
  · intro root2
    simp only [evaluate]
    rw [h1]

/-- C6 witness: the age model evaluated on an empty input fails with
MissingFeatureError for the feature age, for every possible tree. -/
theorem evaluate_missing_feature_witness :
    ∃ n, n ∈ ageModel.schema.map Prod.fst ∧ lookupValue [] n = none ∧
      evaluate ageModel [] = .error (.missingFeature n) ∧
      ∀ root2 : TreeNode,
        evaluate ⟨root2, ageModel.schema, ageModel.classLabels⟩ [] =
          .error (.missingFeature n) :=
  evaluate_missing_feature ageModel [] ⟨("age", .numeric), by simp [ageModel], rfl⟩

theorem firstMissing_none_of_all (fv : FeatureVector) :
    ∀ schema : List (String × FeatureType),
      (∀ p ∈ schema, (lookupValue fv p.1).isSome) →
      firstMissing fv schema = none
  | [], _ => rfl
  | (n0, ty) :: rest, h => by
    have h0 := h (n0, ty) (by simp)
    cases hl : lookupValue fv n0 with
    | none =>
      rw [hl] at h0
      exact absurd h0 (by simp)
    | some v =>
      simp only [firstMissing, hl]
      exact firstMissing_none_of_all fv rest (fun p hp => h p (List.mem_cons_of_mem _ hp))

theorem encodeAll_unknown (fv : FeatureVector) :
    ∀ schema : List (String × FeatureType),
      (∀ p ∈ schema, (lookupValue fv p.1).isSome) →
      (∃ p ∈ schema, ∃ cats, p.2 = FeatureType.categorical cats ∧
        ∃ v, lookupValue fv p.1 = some v ∧ inCats cats v = false) →
      ∃ n v cats, encodeAll fv schema = .error (.unknownCategory n v) ∧
        (n, FeatureType.categorical cats) ∈ schema ∧ lookupValue fv n = some v ∧
        inCats cats v = false
  | [], _, hex => absurd hex (by simp)
  | (n0, ty) :: rest, hall, hex => by
    have h0 := hall (n0, ty) (by simp)
    rw [Option.isSome_iff_exists] at h0
    obtain ⟨v0, hv0⟩ := h0
    cases henc : encodeValue n0 ty v0 with
    | error e =>
      cases ty with
      | numeric =>
        cases v0 <;> simp [encodeValue] at henc
      | categorical cats =>
        cases v0 with
        | num q =>
          simp only [encodeValue, Except.error.injEq] at henc
          refine ⟨n0, .num q, cats, ?_, by simp, hv0, by simp [inCats]⟩
          simp only [encodeAll, hv0, encodeValue]
        | str s =>
          cases hc : codeOf cats s with
          | some q => simp [encodeValue, hc] at henc
          | none =>
            refine ⟨n0, .str s, cats, ?_, by simp, hv0, by simp [inCats, hc]⟩
            simp only [encodeAll, hv0, encodeValue, hc]
    | ok q =>
      have hex2 : ∃ p ∈ rest, ∃ cats, p.2 = FeatureType.categorical cats ∧
          ∃ v, lookupValue fv p.1 = some v ∧ inCats cats v = false := by
        obtain ⟨p, hp, cats, hcat, v, hv, hvc⟩ := hex
        rcases List.mem_cons.mp hp with heq | hmem
        · exfalso
          rw [heq] at hcat hv
          simp only at hcat hv
          rw [hcat] at henc
          rw [hv0] at hv
          injection hv with hv
          rw [hv] at henc
          cases v with
          | num q2 => simp [encodeValue] at henc
          | str s =>
            simp only [inCats] at hvc
            cases hcode : codeOf cats s with
            | some q2 =>
              rw [hcode] at hvc
              exact absurd hvc (by simp)
            | none => simp [encodeValue, hcode] at henc
        · exact ⟨p, hmem, cats, hcat, v, hv, hvc⟩
      obtain ⟨n, v, cats, h1, h2, h3, h4⟩ :=
        encodeAll_unknown fv rest (fun p hp => hall p (List.mem_cons_of_mem _ hp)) hex2
      refine ⟨n, v, cats, ?_, List.mem_cons_of_mem _ h2, h3, h4⟩
      simp only [encodeAll, hv0, henc, h1]

/-- C7: when every schema feature is present but some categorical feature is
supplied a raw value outside its schema-defined category set, evaluation
fails with UnknownCategoryError naming an offending feature and its supplied
value; in particular no result with a silently substituted code is
returned. -/
theorem evaluate_unknown_category (m : TreeModel) (fv : FeatureVector)
    (hall : ∀ p ∈ m.schema, (lookupValue fv p.1).isSome)
    (hex : ∃ p ∈ m.schema, ∃ cats, p.2 = FeatureType.categorical cats ∧
      ∃ v, lookupValue fv p.1 = some v ∧ inCats cats v = false) :
    ∃ n v cats, evaluate m fv = .error (.unknownCategory n v) ∧
      (n, FeatureType.categorical cats) ∈ m.schema ∧ lookupValue fv n = some v ∧
      inCats cats v = false := by
  have hfm := firstMissing_none_of_all fv m.schema hall
  obtain ⟨n, v, cats, h1, h2, h3, h4⟩ := encodeAll_unknown fv m.schema hall hex
  refine ⟨n, v, cats, ?_, h2, h3, h4⟩
  unfold evaluate
  rw [hfm, h1]

/-- C7 witness: the categorical model with input job = retired, a value not
among the known categories, fails with UnknownCategoryError naming job and
the value retired. -/
theorem evaluate_unknown_category_witness :
    ∃ n v cats,
      evaluate catModel [("job", .str "retired")] = .error (.unknownCategory n v) ∧
      (n, FeatureType.categorical cats) ∈ catModel.schema ∧
      lookupValue [("job", .str "retired")] n = some v ∧
      inCats cats v = false :=
  evaluate_unknown_category catModel [("job", .str "retired")]
    (by simp [catModel, lookupValue])
    ⟨("job", .categorical ["office", "manual"]), by simp [catModel],
      ["office", "manual"], rfl, .str "retired", rfl, by simp [inCats, codeOf]⟩

end DecisionTree

namespace DecisionTree

/-- The fold that selects the predicted class returns either the starting
entry, when nothing in the list strictly exceeds it, or the first entry of
the list strictly exceeding both the starting entry and everything before
it, and in either case the returned entry is maximal. -/
theorem pickBest_spec : ∀ (ps : List (String × ℚ)) (cur : String × ℚ),
    (pickBest cur ps = cur ∧ ∀ p ∈ ps, p.2 ≤ cur.2) ∨
    (∃ i, ∃ hi : i < ps.length, pickBest cur ps = ps.get ⟨i, hi⟩ ∧
      cur.2 < (ps.get ⟨i, hi⟩).2 ∧
      (∀ p ∈ ps, p.2 ≤ (ps.get ⟨i, hi⟩).2) ∧
      (∀ j, ∀ hj : j < ps.length, j < i → (ps.get ⟨j, hj⟩).2 < (ps.get ⟨i, hi⟩).2))
  | [], cur => Or.inl ⟨rfl, by simp⟩
  | p :: ps, cur => by
    have IH := pickBest_spec ps (if cur.2 < p.2 then p else cur)
    by_cases hcp : cur.2 < p.2
    · rw [if_pos hcp] at IH
      rcases IH with ⟨h1, h2⟩ | ⟨i, hi, h1, h2, h3, h4⟩
      · refine Or.inr ⟨0, by simp, ?_, hcp, ?_, ?_⟩
        · simp only [pickBest, if_pos hcp]
          exact h1
        · intro q hq
          rcases List.mem_cons.mp hq with rfl | hm
          · exact le_refl _
          · exact h2 q hm
        · intro j hj hji
          omega
      · refine Or.inr ⟨i + 1, by simpa using hi, ?_, lt_trans hcp h2, ?_, ?_⟩
        · simp only [pickBest, if_pos hcp]
          exact h1
        · intro q hq
          rcases List.mem_cons.mp hq with rfl | hm
          · exact le_of_lt h2
          · exact h3 q hm
        · intro j hj hji
          cases j with
          | zero => exact h2
          | succ j2 => exact h4 j2 (by simpa using hj) (by omega)
    · rw [if_neg hcp] at IH
      have hple : p.2 ≤ cur.2 := not_lt.mp hcp
      rcases IH with ⟨h1, h2⟩ | ⟨i, hi, h1, h2, h3, h4⟩
      · refine Or.inl ⟨?_, ?_⟩
        · simp only [pickBest, if_neg hcp]
          exact h1
        · intro q hq
          rcases List.mem_cons.mp hq with rfl | hm
          · exact hple
          · exact h2 q hm
      · refine Or.inr ⟨i + 1, by simpa using hi, ?_, h2, ?_, ?_⟩
        · simp only [pickBest, if_neg hcp]
          exact h1
        · intro q hq
          rcases List.mem_cons.mp hq with rfl | hm
          · exact le_of_lt (lt_of_le_of_lt hple h2)
          · exact h3 q hm
        · intro j hj hji
          cases j with
          | zero => exact lt_of_le_of_lt hple h2
          | succ j2 => exact h4 j2 (by simpa using hj) (by omega)

/-- On a nonempty list, the selected label sits at an index whose probability
is maximal and strictly exceeds every earlier index. -/
theorem predictedOf_spec (p0 : String × ℚ) (ps : List (String × ℚ)) :
    ∃ i, ∃ hi : i < (p0 :: ps).length,
      ((p0 :: ps).get ⟨i, hi⟩).1 = predictedOf (p0 :: ps) ∧
      (∀ j, ∀ hj : j < (p0 :: ps).length,
        ((p0 :: ps).get ⟨j, hj⟩).2 ≤ ((p0 :: ps).get ⟨i, hi⟩).2) ∧
      (∀ j, ∀ hj : j < (p0 :: ps).length, j < i →
        ((p0 :: ps).get ⟨j, hj⟩).2 < ((p0 :: ps).get ⟨i, hi⟩).2) := by
  rcases pickBest_spec ps p0 with ⟨h1, h2⟩ | ⟨i, hi, h1, h2, h3, h4⟩
  · refine ⟨0, by simp, ?_, ?_, ?_⟩
    · simp only [predictedOf, h1, List.get]
    · intro j hj
      cases j with
      | zero => exact le_refl _
      | succ j2 =>
        exact h2 _ (List.get_mem ps j2 (by simpa using hj))
    · intro j hj hji
      omega
  · refine ⟨i + 1, by simpa using hi, ?_, ?_, ?_⟩
    · simp only [predictedOf, h1, List.get]
    · intro j hj
      cases j with
      | zero => exact le_of_lt h2
      | succ j2 =>
        exact h3 _ (List.get_mem ps j2 (by simpa using hj))
    · intro j hj hji
      cases j with
      | zero => exact h2
      | succ j2 => exact h4 j2 (by simpa using hj) (by omega)

/-- The labels of the computed distribution are exactly the class labels of
the model, in order. -/
theorem leafProbs_map_fst (labels : List String) (counts : List (String × Nat)) :
    (leafProbs labels counts).map Prod.fst = labels := by
  unfold leafProbs
  split <;> simp [Function.comp_def]

/-- C4: the predicted class of a successful prediction is the label of an
entry of the probability distribution with maximal probability, every entry
strictly before it has a strictly smaller probability, and the distribution
lists the class labels of the model in order, so the tie-break picks the
earliest class label. -/
theorem evaluate_predicted_argmax (m : TreeModel) (fv : FeatureVector)
    (r : PredictionResult) (hne : m.classLabels ≠ [])
    (h : evaluate m fv = .ok r) :
    r.probabilities.map Prod.fst = m.classLabels ∧
    ∃ i, ∃ hi : i < r.probabilities.length,
      (r.probabilities.get ⟨i, hi⟩).1 = r.predictedClass ∧
      (∀ j, ∀ hj : j < r.probabilities.length,
        (r.probabilities.get ⟨j, hj⟩).2 ≤ (r.probabilities.get ⟨i, hi⟩).2) ∧
      (∀ j, ∀ hj : j < r.probabilities.length, j < i →
        (r.probabilities.get ⟨j, hj⟩).2 < (r.probabilities.get ⟨i, hi⟩).2) := by
  obtain ⟨hfm, xs, henc, hxs, hr⟩ := evaluate_ok_inv m fv r h
  subst hr
  refine ⟨leafProbs_map_fst _ _, ?_⟩
  cases hp : leafProbs m.classLabels (walk (m.schema.map Prod.fst) xs m.root).2 with
  | nil =>
    exfalso
    apply hne
    have := leafProbs_map_fst m.classLabels (walk (m.schema.map Prod.fst) xs m.root).2
    rw [hp] at this
    exact this.symm
  | cons p0 ps =>
    simp only [hp]
    exact predictedOf_spec p0 ps

end DecisionTree

namespace DecisionTree

theorem countFor_notin : ∀ (counts : List (String × Nat)) (l : String),
    l ∉ counts.map Prod.fst → countFor counts l = 0
  | [], _, _ => rfl
  | (k, v) :: rest, l, h => by
    have hne : l ≠ k := by
      intro he
      exact h (by simp [he])
    simp only [countFor, if_neg hne]
    exact countFor_notin rest l (fun hm => h (by simp [hm]))

theorem countFor_le_leafTotal : ∀ (counts : List (String × Nat)) (l : String),
    countFor counts l ≤ leafTotal counts
  | [], l => by simp [countFor, leafTotal]
  | (k, v) :: rest, l => by
    have IH : countFor rest l ≤ (rest.map Prod.snd).sum := countFor_le_leafTotal rest l
    by_cases h : l = k
    · simp only [countFor, if_pos h, leafTotal, List.map_cons, List.sum_cons]
      omega
    · simp only [countFor, if_neg h, leafTotal, List.map_cons, List.sum_cons]
      omega

theorem sum_if_mem (k : String) (v : ℕ) (g : String → ℕ) :
    ∀ labels : List String, labels.Nodup → k ∈ labels → g k = 0 →
      (labels.map (fun l => if l = k then v else g l)).sum = v + (labels.map g).sum
  | [], _, hk, _ => absurd hk (by simp)
  | a :: as, hnd, hk, hg => by
    rcases List.mem_cons.mp hk with heq | hmem
    · have hknotin : k ∉ as := heq ▸ (List.nodup_cons.mp hnd).1
      have hmap : as.map (fun l => if l = k then v else g l) = as.map g := by
        apply List.map_congr_left
        intro x hx
        have hxk : x ≠ k := fun he => hknotin (he ▸ hx)
        simp [hxk]
      have hga : g a = 0 := by
        rw [show a = k from heq.symm]
        exact hg
      simp only [List.map_cons, List.sum_cons, hmap, if_pos heq.symm, hga]
      omega
    · have hane : a ≠ k := by
        rintro rfl
        exact (List.nodup_cons.mp hnd).1 hmem
      have IH := sum_if_mem k v g as (List.nodup_cons.mp hnd).2 hmem hg
      simp only [List.map_cons, List.sum_cons, if_neg hane, IH]
      omega

theorem sum_countFor : ∀ (counts : List (String × Nat)) (labels : List String),
    labels.Nodup → (∀ p ∈ counts, p.1 ∈ labels) → (counts.map Prod.fst).Nodup →
    (labels.map (countFor counts)).sum = leafTotal counts
  | [], labels, _, _, _ => by
    have hmap : labels.map (countFor []) = labels.map (fun _ => 0) := by
      apply List.map_congr_left
      intro x hx
      rfl
    simp [hmap, leafTotal]
  | (k, v) :: rest, labels, hnd, hsub, hknd => by
    have hk : k ∈ labels := hsub (k, v) (by simp)
    have hknotin : k ∉ rest.map Prod.fst := by
      simp only [List.map_cons] at hknd
      exact (List.nodup_cons.mp hknd).1
    have hg : countFor rest k = 0 := countFor_notin rest k hknotin
    have hrest : (labels.map (countFor rest)).sum = leafTotal rest :=
      sum_countFor rest labels hnd (fun p hp => hsub p (List.mem_cons_of_mem _ hp))
        (by simp only [List.map_cons] at hknd; exact (List.nodup_cons.mp hknd).2)
    have hmap : labels.map (countFor ((k, v) :: rest)) =
        labels.map (fun l => if l = k then v else countFor rest l) := by
      apply List.map_congr_left
      intro x hx
      rfl
    rw [hmap, sum_if_mem k v (countFor rest) labels hnd hk hg, hrest]
    simp [leafTotal]

theorem leafProbs_bounds (labels : List String) (counts : List (String × Nat)) :
    ∀ p ∈ leafProbs labels counts, 0 ≤ p.2 ∧ p.2 ≤ 1 := by
  intro p hp
  unfold leafProbs at hp
  split at hp
  · obtain ⟨l, hl, rfl⟩ := List.mem_map.mp hp
    have hpos : (0 : ℚ) < (labels.length : ℚ) := by
      exact_mod_cast List.length_pos.mpr (List.ne_nil_of_mem hl)
    constructor
    · exact div_nonneg zero_le_one hpos.le
    · rw [div_le_one hpos]
      exact_mod_cast List.length_pos.mpr (List.ne_nil_of_mem hl)
  · rename_i hT
    obtain ⟨l, hl, rfl⟩ := List.mem_map.mp hp
    have hTpos : (0 : ℚ) < (leafTotal counts : ℚ) := by
      exact_mod_cast Nat.pos_of_ne_zero hT
    constructor
    · exact div_nonneg (by positivity) hTpos.le
    · rw [div_le_one hTpos]
      exact_mod_cast countFor_le_leafTotal counts l

theorem sum_map_const_rat (c : ℚ) : ∀ l : List String,
    (l.map (fun _ => c)).sum = l.length * c
  | [] => by simp
  | a :: as => by
    simp [sum_map_const_rat c as]
    ring

theorem sum_map_div_rat (f : String → ℚ) (T : ℚ) : ∀ l : List String,
    (l.map (fun x => f x / T)).sum = (l.map f).sum / T
  | [] => by simp
  | a :: as => by
    simp [sum_map_div_rat f T as, add_div]

theorem sum_map_cast_rat (g : String → ℕ) : ∀ l : List String,
    (l.map (fun x => ((g x : ℕ) : ℚ))).sum = (((l.map g).sum : ℕ) : ℚ)
  | [] => by simp
  | a :: as => by
    simp only [List.map_cons, List.sum_cons, sum_map_cast_rat g as]
    push_cast
    ring

theorem leafProbs_sum (labels : List String) (counts : List (String × Nat))
    (hne : labels ≠ []) (hnd : labels.Nodup)
    (hsub : ∀ p ∈ counts, p.1 ∈ labels) (hknd : (counts.map Prod.fst).Nodup) :
    ((leafProbs labels counts).map Prod.snd).sum = 1 := by
  unfold leafProbs
  split
  · rw [List.map_map]
    rw [show (Prod.snd ∘ fun l => (l, 1 / (labels.length : ℚ))) =
        fun _ => 1 / (labels.length : ℚ) from rfl]
    rw [sum_map_const_rat]
    have hpos : (0 : ℚ) < (labels.length : ℚ) := by
      exact_mod_cast List.length_pos.mpr hne
    field_simp
  · rename_i hT
    rw [List.map_map]
    rw [show (Prod.snd ∘ fun l =>
        (l, (countFor counts l : ℚ) / (leafTotal counts : ℚ))) =
        fun l => ((countFor counts l : ℕ) : ℚ) / ((leafTotal counts : ℕ) : ℚ) from rfl]
    rw [sum_map_div_rat (fun l => ((countFor counts l : ℕ) : ℚ))
      ((leafTotal counts : ℕ) : ℚ) labels]
    rw [sum_map_cast_rat (countFor counts) labels]
    rw [sum_countFor counts labels hnd hsub hknd]
    have hTne : ((leafTotal counts : ℕ) : ℚ) ≠ 0 := by
      exact_mod_cast hT
    field_simp

theorem walk_leavesOk (labels names : List String) (xs : List ℚ) :
    ∀ n : TreeNode, leavesOk labels n →
      (∀ p ∈ (walk names xs n).2, p.1 ∈ labels) ∧
      ((walk names xs n).2.map Prod.fst).Nodup
  | .leaf counts, h => by
    simp only [leavesOk] at h
    simp only [walk]
    exact h
  | .internal i t l r, h => by
    simp only [leavesOk] at h
    by_cases hc : xs.getD i 0 ≤ t
    · simp only [walk, if_pos hc]
      exact walk_leavesOk labels names xs l h.1
    · simp only [walk, if_neg hc]
      exact walk_leavesOk labels names xs r h.2

/-- C3: under the construction-time invariants of the model, a successful
prediction returns a distribution whose labels are exactly the class labels
of the model, whose probabilities all lie in the closed unit interval, and
whose probabilities sum to 1 exactly, hence within the stated tolerance of
one billionth. -/
theorem evaluate_distribution (m : TreeModel) (fv : FeatureVector)
    (r : PredictionResult) (hm : WellFormed m) (h : evaluate m fv = .ok r) :
    r.probabilities.map Prod.fst = m.classLabels ∧
    (∀ p ∈ r.probabilities, 0 ≤ p.2 ∧ p.2 ≤ 1) ∧
    |(r.probabilities.map Prod.snd).sum - 1| ≤ 1 / 1000000000 := by
  obtain ⟨hne, hnd, hleaves⟩ := hm
  obtain ⟨hfm, xs, henc, hxs, hr⟩ := evaluate_ok_inv m fv r h
  subst hr
  have hw := walk_leavesOk m.classLabels (m.schema.map Prod.fst) xs m.root hleaves
  refine ⟨leafProbs_map_fst _ _, leafProbs_bounds _ _, ?_⟩
  rw [leafProbs_sum m.classLabels _ hne hnd hw.1 hw.2]
  norm_num

end DecisionTree

namespace DecisionTree

/-- C3 witness: the single-leaf model with counts A 3 and B 1 evaluates to
the distribution A 3/4, B 1/4, which lists the class labels in order, has
all probabilities in the unit interval, and sums to 1. -/
theorem evaluate_distribution_witness :
    (⟨"A", [("A", (3 : ℚ)/4), ("B", (1 : ℚ)/4)], []⟩ :
        PredictionResult).probabilities.map Prod.fst = singleLeafModel.classLabels ∧
    (∀ p ∈ (⟨"A", [("A", (3 : ℚ)/4), ("B", (1 : ℚ)/4)], []⟩ :
        PredictionResult).probabilities, 0 ≤ p.2 ∧ p.2 ≤ 1) ∧
    |((⟨"A", [("A", (3 : ℚ)/4), ("B", (1 : ℚ)/4)], []⟩ :
        PredictionResult).probabilities.map Prod.snd).sum - 1| ≤ 1 / 1000000000 := by
  have h4 : leafProbs ["A", "B"] [("A", 3), ("B", 1)] =
      [("A", (3 : ℚ)/4), ("B", (1 : ℚ)/4)] := by
    simp [leafProbs, leafTotal, countFor]
  have h5 : predictedOf [("A", (3 : ℚ)/4), ("B", (4 : ℚ)⁻¹)] = "A" := by
    norm_num [predictedOf, pickBest]
  have hok : evaluate singleLeafModel [] =
      .ok ⟨"A", [("A", (3 : ℚ)/4), ("B", (1 : ℚ)/4)], []⟩ := by
    simp [evaluate, singleLeafModel, firstMissing, encodeAll, walk, h4, h5]
  have hwf : WellFormed singleLeafModel := by
    refine ⟨by simp [singleLeafModel], by simp [singleLeafModel], ?_⟩
    simp [singleLeafModel, leavesOk]
  exact evaluate_distribution singleLeafModel []
    ⟨"A", [("A", (3 : ℚ)/4), ("B", (1 : ℚ)/4)], []⟩ hwf hok

/-- C4 witness: on the single-leaf model the predicted class A sits at an
index of the distribution A 3/4, B 1/4 carrying the maximal probability,
with nothing before it. -/
theorem evaluate_predicted_argmax_witness :
    (⟨"A", [("A", (3 : ℚ)/4), ("B", (1 : ℚ)/4)], []⟩ :
        PredictionResult).probabilities.map Prod.fst = singleLeafModel.classLabels ∧
    ∃ i, ∃ hi : i < (⟨"A", [("A", (3 : ℚ)/4), ("B", (1 : ℚ)/4)], []⟩ :
        PredictionResult).probabilities.length,
      ((⟨"A", [("A", (3 : ℚ)/4), ("B", (1 : ℚ)/4)], []⟩ :
          PredictionResult).probabilities.get ⟨i, hi⟩).1 =
        (⟨"A", [("A", (3 : ℚ)/4), ("B", (1 : ℚ)/4)], []⟩ :
          PredictionResult).predictedClass ∧
      (∀ j, ∀ hj : j < (⟨"A", [("A", (3 : ℚ)/4), ("B", (1 : ℚ)/4)], []⟩ :
          PredictionResult).probabilities.length,
        ((⟨"A", [("A", (3 : ℚ)/4), ("B", (1 : ℚ)/4)], []⟩ :
            PredictionResult).probabilities.get ⟨j, hj⟩).2 ≤
          ((⟨"A", [("A", (3 : ℚ)/4), ("B", (1 : ℚ)/4)], []⟩ :
            PredictionResult).probabilities.get ⟨i, hi⟩).2) ∧
      (∀ j, ∀ hj : j < (⟨"A", [("A", (3 : ℚ)/4), ("B", (1 : ℚ)/4)], []⟩ :
          PredictionResult).probabilities.length, j < i →
        ((⟨"A", [("A", (3 : ℚ)/4), ("B", (1 : ℚ)/4)], []⟩ :
            PredictionResult).probabilities.get ⟨j, hj⟩).2 <
          ((⟨"A", [("A", (3 : ℚ)/4), ("B", (1 : ℚ)/4)], []⟩ :
            PredictionResult).probabilities.get ⟨i, hi⟩).2) := by
  have h4 : leafProbs ["A", "B"] [("A", 3), ("B", 1)] =
      [("A", (3 : ℚ)/4), ("B", (1 : ℚ)/4)] := by
    simp [leafProbs, leafTotal, countFor]
  have h5 : predictedOf [("A", (3 : ℚ)/4), ("B", (4 : ℚ)⁻¹)] = "A" := by
    norm_num [predictedOf, pickBest]
  have hok : evaluate singleLeafModel [] =
      .ok ⟨"A", [("A", (3 : ℚ)/4), ("B", (1 : ℚ)/4)], []⟩ := by
    simp [evaluate, singleLeafModel, firstMissing, encodeAll, walk, h4, h5]
  exact evaluate_predicted_argmax singleLeafModel []
    ⟨"A", [("A", (3 : ℚ)/4), ("B", (1 : ℚ)/4)], []⟩
    (by simp [singleLeafModel]) hok

end DecisionTree

namespace DecisionTree

/-- C1 witness: at the boundary where the observed value 30 equals the
threshold 30, the traversal descends to the left child. -/
theorem evaluate_descends_left_iff_witness :
    walk ["age"] [(30 : ℚ)]
      (TreeNode.internal 0 30 (.leaf [("Approved", 1)]) (.leaf [("Denied", 1)])) =
      (⟨["age"].getD 0 "", true, 30, [(30 : ℚ)].getD 0 0⟩ ::
        (walk ["age"] [(30 : ℚ)] (.leaf [("Approved", 1)])).1,
       (walk ["age"] [(30 : ℚ)] (.leaf [("Approved", 1)])).2) :=
  (evaluate_descends_left_iff ["age"] [(30 : ℚ)] 0 30
    (.leaf [("Approved", 1)]) (.leaf [("Denied", 1)])).mpr (by norm_num)

end DecisionTree

namespace Trainer

/-- C9 amended witness: the value 3 is accepted and stored by the handler. -/
theorem minSamplesSplit_accepts_iff_pos_witness :
    minSamplesSplitUpdate 2 3 = 3 :=
  (minSamplesSplit_accepts_iff_pos 2 3).2.1 (by decide)

/-- C10 witness: with a selected target not among the nonempty features, the
submission sends a request. -/
theorem handleSubmit_request_iff_witness :
    ∃ t fs, handleSubmit "loan_approved" ["age", "income"] = .request t fs :=
  (handleSubmit_request_iff "loan_approved" ["age", "income"]).1.mpr
    ⟨by decide, by decide, by decide⟩

end Trainer
